import Mathlib

/-!
Verification development for the result-merging and evidence-normalization
core of `structure_threader`'s MavericK wrapper
(`structure_threader/wrappers/maverick_wrapper.py`).

Python strings are embedded as `List Char`; a parameter file is a list of
lines (each line a `List Char`, without its trailing newline, which none of
the modelled operations inspects).  Python runtime failures
(`TypeError`, `KeyError`, `IndexError`, `FileNotFoundError`, `NameError`)
are embedded as an explicit error type, and `sys.exit` as a separate
fatal-exit error.  The filesystem is embedded as an association list from
path to file content; functions that write files return the list of
`(path, content)` writes they perform.
-/

namespace MavSpec

/-- A Python string: a list of characters. -/
abbrev Line := List Char

/-- Python runtime errors raised by the modelled code paths. -/
inductive PyError
  | typeError
  | keyError
  | indexError
  | fileNotFoundError
  | nameError
deriving DecidableEq

/-- Either a Python runtime error or a `sys.exit` caused by
`logging.fatal` + `sys.exit(0)` (the payload names the offending
parameter). -/
inductive MavErr
  | pyerr (e : PyError)
  | sysExit (param : Line)
deriving DecidableEq

instance {ε α : Type} [DecidableEq ε] [DecidableEq α] :
    DecidableEq (Except ε α) := fun a b =>
  match a, b with
  | .error e, .error f =>
    if h : e = f then .isTrue (congrArg Except.error h)
    else .isFalse (fun c => h (Except.error.inj c))
  | .error _, .ok _ => .isFalse (fun c => Except.noConfusion c)
  | .ok _, .error _ => .isFalse (fun c => Except.noConfusion c)
  | .ok x, .ok y =>
    if h : x = y then .isTrue (congrArg Except.ok h)
    else .isFalse (fun c => h (Except.ok.inj c))

/-- Whitespace characters recognised by Python's `str.split()` (no
arguments): space, tab, newline, carriage return, vertical tab, form
feed. -/
def isWs (c : Char) : Bool :=
  c = ' ' || c = '\t' || c = '\n' || c = '\r' || c = '\x0b' || c = '\x0c'

/-- Helper for `splitWs`: `acc` holds the (reversed) characters of the
token currently being read. -/
def splitWsAux : List Char → List Char → List Line
  | [], acc => if acc = [] then [] else [acc.reverse]
  | c :: cs, acc =>
    if isWs c then
      if acc = [] then splitWsAux cs [] else acc.reverse :: splitWsAux cs []
    else
      splitWsAux cs (c :: acc)

/-- Python's `str.split()` with no arguments: split on runs of whitespace,
discarding empty tokens. -/
def splitWs (l : List Char) : List Line := splitWsAux l []

/-- Helper for `splitChar`. -/
def splitCharAux (sep : Char) : List Char → List Char → List Line
  | [], acc => [acc.reverse]
  | c :: cs, acc =>
    if c = sep then acc.reverse :: splitCharAux sep cs []
    else splitCharAux sep cs (c :: acc)

/-- Python's `str.split(sep)` for a one-character separator `sep`:
split at every occurrence of `sep`, keeping empty tokens
(`"".split(",") == [""]`, `"a,".split(",") == ["a", ""]`). -/
def splitChar (sep : Char) (l : List Char) : List Line := splitCharAux sep l []

/-- Python's `str.lower()` (ASCII arguments only in this code base). -/
def lowerLine (l : Line) : Line := l.map Char.toLower

/-- Decimal digit character. -/
def natDigitChar (d : Nat) : Char := Char.ofNat (48 + d)

/-- Fuel-based decimal rendering (fuel is structurally decreasing so the
definition reduces in the kernel). -/
def natToLineAux : Nat → Nat → Line
  | 0, _ => []
  | fuel + 1, n =>
    if n < 10 then [natDigitChar n]
    else natToLineAux fuel (n / 10) ++ [natDigitChar (n % 10)]

/-- Python's `str(n)` for a natural number. -/
def natToLine (n : Nat) : Line := natToLineAux (n + 1) n

/-- `os.path.join` on POSIX: join with a `/` separator (none of the
modelled arguments end in a slash). -/
def pathJoin (a b : Line) : Line := a ++ '/' :: b

/-- Python dict assignment `d[k] = v` on an association list: replace the
binding of `k` if present, otherwise append it. -/
def upsertP {β : Type} : List (Line × β) → Line → β → List (Line × β)
  | [], k, v => [(k, v)]
  | (k', v') :: rest, k, v =>
    if k' = k then (k, v) :: rest else (k', v') :: upsertP rest k v

/-- Python dict lookup `d[k]` (as an option) on an association list. -/
def lookupP {β : Type} : List (Line × β) → Line → Option β
  | [], _ => none
  | (k', v') :: rest, k => if k' = k then some v' else lookupP rest k

/-- A line matches the sanitised query of `mav_params_parser`:
`lines.startswith(sane_query)` where `sane_query` appends a tab to every
query key ("Add a  backslash-t at the end of each string to avoid finding
partial strings such as alpha and alphaPropSD"). -/
def lineMatches (query : List Line) (l : Line) : Bool :=
  query.any (fun q => (q ++ ['\t']).isPrefixOf l)

/-- The loop of `mav_params_parser`: for each line that starts with a
sanitised query key, `result[lines[0]] = lines[1]` on the
whitespace-split tokens; a matching line with fewer than two tokens makes
Python raise `IndexError`. -/
def parseLinesAux (query : List Line) : List Line → List (Line × Line) →
    Except PyError (List (Line × Line))
  | [], acc => .ok acc
  | l :: ls, acc =>
    if lineMatches query l then
      match splitWs l with
      | t0 :: t1 :: _ => parseLinesAux query ls (upsertP acc t0 t1)
      | _ => .error .indexError
    else parseLinesAux query ls acc

/-- `mav_params_parser(parameter_filename, query)`: parses MavericK's
parameter file (given as its list of lines) and returns the matched
`(key, value)` pairs; returns `None` (here `none`) when no query key
matched anything. -/
def mav_params_parse (fileLines : List Line) (query : List Line) :
    Except PyError (Option (List (Line × Line))) :=
  match parseLinesAux query fileLines [] with
  | .error e => .error e
  | .ok [] => .ok none
  | .ok r => .ok (some r)

/-- The query key `"thermodynamic_on"`. -/
def kThermo : Line := "thermodynamic_on".toList

/-- Strings that Python's `in ("f", "false", "0")` test accepts. -/
def falseStrs : List Line := ["f".toList, "false".toList, "0".toList]

/-- Strings that Python's `in ("t", "true", "1")` test accepts. -/
def trueStrs : List Line := ["t".toList, "true".toList, "1".toList]

/-- `mav_ti_in_use(parameter_filename)`.  Note the Python code subscripts
`parsed_data["thermodynamic_on"]` *before* the `elif not parsed_data`
check, so when the key is absent the parser returns `None` and the
subscript raises `TypeError`. -/
def mav_ti_in_use (paramsLines : List Line) : Except PyError Bool :=
  match mav_params_parse paramsLines [kThermo] with
  | .error e => .error e
  | .ok none => .error .typeError
  | .ok (some d) =>
    match lookupP d kThermo with
    | none => .error .keyError
    | some v => .ok (if lowerLine v ∈ falseStrs then false else true)

/-- The query key `"alpha"`. -/
def alphaKey : Line := "alpha".toList

/-- The query key `"alphaPropSD"`. -/
def alphaPSDKey : Line := "alphaPropSD".toList

/-- The per-parameter loop of `mav_alpha_failsafe`: for each parsed
`(param, val)` pair, split `val` on commas; a multi-token value whose
token count differs from `len(k_list)` triggers `logging.fatal` +
`sys.exit(0)` (embedded as an error naming the parameter); otherwise a
multi-token value is zipped with `k_list` into the per-K mapping. -/
def failsafeFold (k_list : List Nat) :
    List (Line × Line) → List (Line × Option (List (Nat × Line))) →
    Except Line (List (Line × Option (List (Nat × Line))))
  | [], acc => .ok acc
  | (p, v) :: rest, acc =>
    let toks := splitChar ',' v
    if 1 < toks.length then
      if toks.length ≠ k_list.length then .error p
      else failsafeFold k_list rest (upsertP acc p (some (k_list.zip toks)))
    else failsafeFold k_list rest acc

/-- `mav_alpha_failsafe(parameter_filename, k_list)`: resolves the
`alpha` and `alphaPropSD` parameters to either `False` (here `none`,
a constant value) or a per-K mapping (here `some` an association list
from K to token). -/
def mav_alpha_failsafe (paramsLines : List Line) (k_list : List Nat) :
    Except MavErr (List (Line × Option (List (Nat × Line)))) :=
  let init : List (Line × Option (List (Nat × Line))) :=
    [(alphaKey, none), (alphaPSDKey, none)]
  match mav_params_parse paramsLines [alphaKey, alphaPSDKey] with
  | .error e => .error (.pyerr e)
  | .ok none => .ok init
  | .ok (some d) =>
    match failsafeFold k_list d init with
    | .error p => .error (.sysExit p)
    | .ok r => .ok r

/-- The query key `"outputEvidence"`. -/
def kOutputEvidence : Line := "outputEvidence".toList

/-- The query key `"outputEvidence_on"`. -/
def kOutputEvidenceOn : Line := "outputEvidence_on".toList

/-- The query key `"outputEvidenceDetails_on"`. -/
def kOutputEvidenceDetailsOn : Line := "outputEvidenceDetails_on".toList

/-- The query key `"outputEvidenceDetails"`. -/
def kOutputEvidenceDetails : Line := "outputEvidenceDetails".toList

/-- `_gen_files_list(output_params, no_tests)` of `maverick_merger`.
When none of the four output parameters occurs in the parameter file the
parser returns `None` and the first subscript
`parsed_params["outputEvidence_on"]` raises `TypeError` (the
`try/except KeyError` does not catch it).  Otherwise a missing key raises
`KeyError`, which is caught and replaced by the documented default. -/
def _gen_files_list (paramsLines : List Line) (no_tests : Bool) :
    Except PyError (List Line × Bool) :=
  match mav_params_parse paramsLines
      [kOutputEvidence, kOutputEvidenceOn, kOutputEvidenceDetailsOn,
       kOutputEvidenceDetails] with
  | .error e => .error e
  | .ok none => .error .typeError
  | .ok (some d) =>
    let no_tests1 := match lookupP d kOutputEvidenceOn with
      | some v => if lowerLine v ∈ falseStrs then true else no_tests
      | none => no_tests
    let files1 := [(lookupP d kOutputEvidence).getD "outputEvidence.csv".toList]
    let evidenceFilename :=
      (lookupP d kOutputEvidenceDetails).getD "outputEvidenceDetails.csv".toList
    let files2 := match lookupP d kOutputEvidenceDetailsOn with
      | some v => if lowerLine v ∈ trueStrs then files1 ++ [evidenceFilename]
                  else files1
      | none => files1 ++ [evidenceFilename]
    .ok (files2, no_tests1)

/-- `_mav_output_parser(filename)`: reads the header line and the
remaining lines and returns `header + data`, i.e. exactly the file's
content. -/
def mav_output_parse (content : Line) : Line := content

/-- The in-memory evidence accumulator of `maverick_merger`:
`None` for non-primary files, `{}` before the first K, and the built
dict afterwards. -/
inductive EvState
  | unused
  | empty
  | built (tbl : List (Line × List Line))

/-- `evidence[j].append(k)` for one `(j, k)` pair: `none` when `j` is not
a key of the table (Python `KeyError`). -/
def appendVal : List (Line × List Line) → Line → Line →
    Option (List (Line × List Line))
  | [], _, _ => none
  | (h, vs) :: rest, j, k =>
    if h = j then some ((h, vs ++ [k]) :: rest)
    else (appendVal rest j k).map (fun r => (h, vs) :: r)

/-- `for j, k in zip(...): evidence[j].append(k)`. -/
def evAppendAll : List (Line × List Line) → List (Line × Line) →
    Option (List (Line × List Line))
  | tbl, [] => some tbl
  | tbl, (j, k) :: rest =>
    match appendVal tbl j k with
    | none => none
    | some tbl' => evAppendAll tbl' rest

/-- The evidence bookkeeping done for each K before the write:
`if evidence == {}: evidence = {head: [val] for head, val in
zip(diff[0].split(","), diff[1].split(","))}` and
`elif evidence is not None: for j, k in zip(...): evidence[j].append(k)`.
Accessing `diff[1]` on a fragment without a second line raises
`IndexError`; an unknown header token raises `KeyError`. -/
def evUpdate (ev : EvState) (diff : List Line) : Except PyError EvState :=
  match ev with
  | .unused => .ok .unused
  | .empty =>
    match diff.get? 1 with
    | none => .error .indexError
    | some d1 =>
      .ok (.built (((splitChar ',' (diff.headD [])).zip
        (splitChar ',' d1)).foldl (fun acc jk => upsertP acc jk.1 [jk.2]) []))
  | .built tbl =>
    match diff.get? 1 with
    | none => .error .indexError
    | some d1 =>
      match evAppendAll tbl ((splitChar ',' (diff.headD [])).zip
          (splitChar ',' d1)) with
      | none => .error .keyError
      | some tbl' => .ok (.built tbl')

/-- The per-K output directory name `"mav_K" + str(i)`. -/
def mavKName (i : Nat) : Line := "mav_K".toList ++ natToLine i

/-- The loop state for merging one logical output file: the content
written to the merged outfile so far, the `first_k` flag and the
evidence accumulator. -/
structure FileSt where
  content : Line
  firstK : Bool
  ev : EvState

/-- One iteration of `for i in k_list` in `maverick_merger`: read the
per-K fragment (a missing file raises `FileNotFoundError`), update the
evidence accumulator, then write the whole fragment (first K) or
`diff[1]` — the second line, with no trailing newline — (later Ks) into
the merged outfile.  An error carries the content written so far. -/
def mergeStep (fs : List (Line × Line)) (outdir filename : Line)
    (st : FileSt) (i : Nat) : Except (PyError × Line) FileSt :=
  match lookupP fs (pathJoin (pathJoin outdir (mavKName i)) filename) with
  | none => .error (.fileNotFoundError, st.content)
  | some raw =>
    let data := mav_output_parse raw
    let diff := splitChar '\n' data
    match evUpdate st.ev diff with
    | .error e => .error (e, st.content)
    | .ok ev' =>
      if st.firstK then .ok ⟨st.content ++ data, false, ev'⟩
      else
        match diff.get? 1 with
        | none => .error (.indexError, st.content)
        | some d1 => .ok ⟨st.content ++ d1, false, ev'⟩

/-- The `for i in k_list` loop for one logical output file; returns the
final content of the merged outfile together with the error that
interrupted the loop, if any (on error the outfile keeps the content
written before the error: it was opened with mode "w" — created and
truncated — before the loop). -/
def mergeFileLoop (fs : List (Line × Line)) (outdir filename : Line) :
    List Nat → FileSt → Line × Option PyError
  | [], st => (st.content, none)
  | i :: ks, st =>
    match mergeStep fs outdir filename st i with
    | .error (e, sofar) => (sofar, some e)
    | .ok st' => mergeFileLoop fs outdir filename ks st'

/-- The result of `maverick_merger`: the `(path, content)` writes it
performed, and the error that aborted it, if any. -/
structure MergeOut where
  writes : List (Line × Line)
  err : Option MavErr
deriving DecidableEq

/-- The `for filename in files_list` loop of `maverick_merger`:
`evidence` is reset to `{}` for the primary file (`files_list[0]`) and to
`None` otherwise, then the per-K loop runs and the merged file is closed.
An uncaught per-K error aborts the whole merge, after the partially
written merged file. -/
def filesLoop (fs : List (Line × Line)) (outdir mrgdir : Line)
    (k_list : List Nat) (firstFile : Line) :
    List Line → List (Line × Line) → MergeOut
  | [], ws => ⟨ws, none⟩
  | f :: rest, ws =>
    let ev0 : EvState := if f = firstFile then .empty else .unused
    let r := mergeFileLoop fs outdir f k_list ⟨[], true, ev0⟩
    let ws' := ws ++ [(pathJoin mrgdir f, r.1)]
    match r.2 with
    | some e => ⟨ws', some (.pyerr e)⟩
    | none => filesLoop fs outdir mrgdir k_list firstFile rest ws'

/-- `maverick_merger(outdir, k_list, params_file, no_tests)`.  After the
merging loops, `if no_tests is False:` evaluates `log_evidence_mv` — a
name that is bound nowhere in the function — so Python raises
`NameError` before `_ti_test` can run. -/
def maverick_merger (fs : List (Line × Line)) (outdir : Line)
    (k_list : List Nat) (paramsLines : List Line) (no_tests : Bool) :
    MergeOut :=
  match _gen_files_list paramsLines no_tests with
  | .error e => ⟨[], some (.pyerr e)⟩
  | .ok fl =>
    let mrg := pathJoin outdir "merged".toList
    let res := filesLoop fs outdir mrg k_list (fl.1.headD []) fl.1 []
    match res.err with
    | some _ => res
    | none =>
      if fl.2 = false then ⟨res.writes, some (.pyerr .nameError)⟩ else res

/-- Python's `max(d, key=d.get)` over a dict: the first key (in
insertion order) with maximal value; `best` is the current best pair. -/
def pyMaxAux : List (Line × ℚ) → (Line × ℚ) → Line
  | [], best => best.1
  | (k, v) :: rest, best =>
    pyMaxAux rest (if best.2 < v then (k, v) else best)

/-- Python's `max(d, key=d.get)`; `none` for an empty dict
(`ValueError` in Python). -/
def pyMax : List (Line × ℚ) → Option Line
  | [] => none
  | p :: rest => some (pyMaxAux rest p)

/-- Python's `int(s)` on a string of decimal digits. -/
def intOfDigits (l : Line) : Int :=
  l.foldl (fun acc c => acc * 10 + ((c.toNat : Int) - 48)) 0

/-- `_ti_test(outdir, log_evidence_mv)` of `maverick_merger` (modelled
standalone: inside the merger the call never happens because evaluating
the argument `log_evidence_mv` raises `NameError`).  Note
`bestk = max(log_evidence_mv, key=log_evidence_mv.get).replace("K", "1")`:
every "K" character of the best key is replaced by "1", so key "K2"
becomes "12".  Returns the single write and the returned list
`[int(bestk)]`; `none` when the dict is empty. -/
def _ti_test (outdir : Line) (log_evidence_mv : List (Line × ℚ)) :
    Option ((Line × Line) × List Int) :=
  match pyMax log_evidence_mv with
  | none => none
  | some kbest =>
    let bestkStr := kbest.map (fun c => if c = 'K' then '1' else c)
    let msg :=
      ("MavericK's estimation test revealed " ++
       "that the best value of 'K' is: ").toList ++ bestkStr ++ ['\n']
    some ((pathJoin (pathJoin outdir "bestK".toList)
             "TI_integration.txt".toList, msg),
          [intOfDigits bestkStr])

/-- `_write_normalized_output(evidence, k_list)` of `maverick_merger`
(never called by the merger).  Its parameter query passes the *string*
`"outputEvidenceNormalised"` rather than a tuple, so `mav_params_parser`
iterates over its characters; afterwards the first loop iteration
subscripts the evidence dict with a *list* key
(`evidence[cat]` where `cat = ["logEvidence_..Mean", "logEvidence_..SE"]`),
which raises `TypeError` (unhashable type) before any file is written.
The function contains no write call at all. -/
def _write_normalized_output (paramsLines : List Line) :
    Except PyError (List (Line × Line)) :=
  match mav_params_parse paramsLines
      ("outputEvidenceNormalised".toList.map (fun c => [c])) with
  | .error e => .error e
  | .ok _ => .error .typeError

/-- One record of `maverick_normalization`'s result:
`{"norm_mean": …, "lower_limit": …, "upper_limit": …}`. -/
structure NormRec where
  norm_mean : ℚ
  lower_limit : ℚ
  upper_limit : ℚ
deriving DecidableEq

/-- `np.mean`: the arithmetic mean (0 for an empty list, matching the
convention `0 / 0 = 0` of `ℚ`). -/
def npMean (l : List ℚ) : ℚ := l.sum / (l.length : ℚ)

/-- `np.percentile(a, p)` with the default linear interpolation between
closest ranks, on an already sorted list: with `h = (len(a) - 1) * p / 100`
the fractional position, `i = floor h` and `lo`/`hi` the values at ranks
`i` and `i + 1` (`hi` falling back to `lo` at the top end), the result is
`lo + (h - i) * (hi - lo)`.  (Written without `let` so that each piece
can be rewritten independently in proofs.) -/
def npPercentile (l : List ℚ) (p : ℚ) : ℚ :=
  l.getD (⌊((l.length : ℚ) - 1) * p / 100⌋).toNat 0 +
    (((l.length : ℚ) - 1) * p / 100 -
      ((⌊((l.length : ℚ) - 1) * p / 100⌋ : ℤ) : ℚ)) *
      (l.getD ((⌊((l.length : ℚ) - 1) * p / 100⌋).toNat + 1)
         (l.getD (⌊((l.length : ℚ) - 1) * p / 100⌋).toNat 0) -
       l.getD (⌊((l.length : ℚ) - 1) * p / 100⌋).toNat 0)

/-- `z_array[i] = np.sort(y_array / sum(y_array))` of
`maverick_normalization`: each of this K's draws is divided by the sum
of this K's *own* `draws` samples (not by any across-K per-trial sum),
then sorted ascending. -/
def zRow (row : List ℚ) : List ℚ :=
  List.insertionSort (· ≤ ·) (row.map (fun v => v / row.sum))

/-- `maverick_normalization(x_mean, x_sd, klist, draws, limit)`.
The Monte-Carlo sampling is embedded by passing the drawn values
explicitly: `y` has one row per K, whose entries are the `draws` values
`np.exp(rnorm(x_mean[i], x_sd[i]))` — strictly positive reals, since
`exp` is positive.  Everything after the draws is deterministic and is
modelled exactly: per K the draws are divided by their own sum, sorted,
and summarised by `np.mean`, and the `(100 - limit) / 2`-th and
`100 - (100 - limit) / 2`-th percentiles. -/
def maverick_normalization (y : List (List ℚ)) (klist : List Nat)
    (limit : ℚ) : List (Nat × NormRec) :=
  (klist.zip y).map (fun kr =>
    (kr.1, ⟨npMean (zRow kr.2),
            npPercentile (zRow kr.2) ((100 - limit) / 2),
            npPercentile (zRow kr.2) (100 - (100 - limit) / 2)⟩))

/-! ### Concrete scenarios used by the theorems -/

/-- Results root directory of the worked scenarios. -/
def demoOut : Line := "out".toList

/-- A parameter file holding only the primary output filename, so the
merger's configuration lookup succeeds and every toggle takes its
default. -/
def demoParams : List Line := ["outputEvidence\toutputEvidence.csv".toList]

/-- The per-K fragment of file `f` for run `K = i`, with content `d`
followed by a final newline. -/
def frag (i : Nat) (f d : String) : Line × Line :=
  (pathJoin (pathJoin demoOut (mavKName i)) f.toList, (d ++ "\n").toList)

/-- A complete set of per-K fragments for `k_list = [1, 2, 3]`: both
logical output files exist for every K, all headers identical, one data
row each. -/
def demoFS : List (Line × Line) :=
  [frag 1 "outputEvidence.csv" "h\nd1", frag 2 "outputEvidence.csv" "h\nd2",
   frag 3 "outputEvidence.csv" "h\nd3",
   frag 1 "outputEvidenceDetails.csv" "x\ne1",
   frag 2 "outputEvidenceDetails.csv" "x\ne2",
   frag 3 "outputEvidenceDetails.csv" "x\ne3"]

/-- The missing-fragment scenario: the primary evidence fragment exists
for `K = 1` (with content `c1`) and for `K = 3`, but not for `K = 2`. -/
def missingFS (c1 : Line) : List (Line × Line) :=
  [(pathJoin (pathJoin demoOut (mavKName 1)) "outputEvidence.csv".toList, c1),
   frag 3 "outputEvidence.csv" "h\nd3"]

/-! ### Helper lemmas about the per-K override resolver -/

theorem lookupP_upsertP_self {β : Type} (acc : List (Line × β)) (k : Line)
    (v : β) : lookupP (upsertP acc k v) k = some v := by
  induction acc with
  | nil => simp [upsertP, lookupP]
  | cons hd tl ih =>
    obtain ⟨k', v'⟩ := hd
    by_cases h : k' = k
    · simp [upsertP, lookupP, h]
    · simp [upsertP, lookupP, h, ih]

theorem lookupP_upsertP_ne {β : Type} (acc : List (Line × β)) (k k' : Line)
    (v : β) (h : k' ≠ k) :
    lookupP (upsertP acc k v) k' = lookupP acc k' := by
  induction acc with
  | nil => simp [upsertP, lookupP, Ne.symm h]
  | cons hd tl ih =>
    obtain ⟨k0, v0⟩ := hd
    by_cases h0 : k0 = k
    · subst h0
      simp [upsertP, lookupP, h, Ne.symm h]
    · by_cases h1 : k0 = k'
      · simp [upsertP, lookupP, h0, h1, h]
      · simp [upsertP, lookupP, h0, h1, ih]

/-- If some parsed parameter has a multi-token value whose token count
differs from `len(k_list)`, `failsafeFold` exits fatally naming an
offending parameter, whatever the accumulator. -/
theorem failsafeFold_error_of_offending (k_list : List Nat)
    (d : List (Line × Line)) (p v : Line) (hv : (p, v) ∈ d)
    (h1 : 1 < (splitChar ',' v).length)
    (h2 : (splitChar ',' v).length ≠ k_list.length) :
    ∀ acc, ∃ q w, (q, w) ∈ d ∧ 1 < (splitChar ',' w).length ∧
      (splitChar ',' w).length ≠ k_list.length ∧
      failsafeFold k_list d acc = .error q := by
  induction d with
  | nil => cases hv
  | cons hd tl ih =>
    obtain ⟨p0, v0⟩ := hd
    intro acc
    by_cases hb1 : 1 < (splitChar ',' v0).length
    · by_cases hb2 : (splitChar ',' v0).length ≠ k_list.length
      · exact ⟨p0, v0, List.mem_cons_self _ _, hb1, hb2, by
          simp [failsafeFold, hb1, hb2]⟩
      · have hvtl : (p, v) ∈ tl := by
          rcases List.mem_cons.mp hv with h | h
          · cases h
            exact absurd h2 hb2
          · exact h
        obtain ⟨q, w, hm, hw1, hw2, he⟩ := ih hvtl
          (upsertP acc p0 (some (k_list.zip (splitChar ',' v0))))
        exact ⟨q, w, List.mem_cons_of_mem _ hm, hw1, hw2, by
          simp [failsafeFold, hb1, hb2, he]⟩
    · have hvtl : (p, v) ∈ tl := by
        rcases List.mem_cons.mp hv with h | h
        · cases h
          exact absurd h1 hb1
        · exact h
      obtain ⟨q, w, hm, hw1, hw2, he⟩ := ih hvtl acc
      exact ⟨q, w, List.mem_cons_of_mem _ hm, hw1, hw2, by
        simp [failsafeFold, hb1, he]⟩

/-- When every parsed value is a single token or has exactly
`len(k_list)` tokens, `failsafeFold` succeeds and only rebinds keys
occurring in the parsed data. -/
theorem failsafeFold_ok_of_all_ok (k_list : List Nat)
    (d : List (Line × Line))
    (hall : ∀ qw ∈ d, ¬1 < (splitChar ',' qw.2).length ∨
      (splitChar ',' qw.2).length = k_list.length) :
    ∀ acc, ∃ r, failsafeFold k_list d acc = .ok r ∧
      ∀ p, p ∉ d.map Prod.fst → lookupP r p = lookupP acc p := by
  induction d with
  | nil => exact fun acc => ⟨acc, rfl, fun _ _ => rfl⟩
  | cons hd tl ih =>
    obtain ⟨p0, v0⟩ := hd
    intro acc
    have htl : ∀ qw ∈ tl, ¬1 < (splitChar ',' qw.2).length ∨
        (splitChar ',' qw.2).length = k_list.length :=
      fun qw hm => hall qw (List.mem_cons_of_mem _ hm)
    by_cases hb1 : 1 < (splitChar ',' v0).length
    · have hb2 : (splitChar ',' v0).length = k_list.length := by
        rcases hall (p0, v0) (List.mem_cons_self _ _) with h | h
        · exact absurd hb1 h
        · exact h
      obtain ⟨r, hr, hpres⟩ := ih htl
        (upsertP acc p0 (some (k_list.zip (splitChar ',' v0))))
      refine ⟨r, ?_, fun p hp => ?_⟩
      · simp only [failsafeFold]
        rw [if_pos hb1, if_neg (not_not_intro hb2), hr]
      have hp0 : p ≠ p0 := fun h =>
        hp (by simp [h, List.mem_cons_self])
      have hptl : p ∉ tl.map Prod.fst := fun h =>
        hp (by simp [List.mem_cons, h])
      rw [hpres p hptl, lookupP_upsertP_ne _ _ _ _ hp0]
    · obtain ⟨r, hr, hpres⟩ := ih htl acc
      refine ⟨r, by simp [failsafeFold, hb1, hr], fun p hp => ?_⟩
      exact hpres p (fun h => hp (by simp [List.mem_cons, h]))

/-- When every parsed value is well-formed, the target parameter's
multi-token value of exactly `len(k_list)` tokens resolves to the zip of
`k_list` with its tokens. -/
theorem failsafeFold_lookup_of_mem (k_list : List Nat)
    (d : List (Line × Line)) (p v : Line)
    (hnd : (d.map Prod.fst).Nodup)
    (hall : ∀ qw ∈ d, ¬1 < (splitChar ',' qw.2).length ∨
      (splitChar ',' qw.2).length = k_list.length)
    (hv : (p, v) ∈ d) (h1 : 1 < (splitChar ',' v).length) :
    ∀ acc, ∃ r, failsafeFold k_list d acc = .ok r ∧
      lookupP r p = some (some (k_list.zip (splitChar ',' v))) := by
  induction d with
  | nil => cases hv
  | cons hd tl ih =>
    obtain ⟨p0, v0⟩ := hd
    intro acc
    have htl : ∀ qw ∈ tl, ¬1 < (splitChar ',' qw.2).length ∨
        (splitChar ',' qw.2).length = k_list.length :=
      fun qw hm => hall qw (List.mem_cons_of_mem _ hm)
    have hndtl : (tl.map Prod.fst).Nodup := (List.nodup_cons.mp hnd).2
    have hp0tl : p0 ∉ tl.map Prod.fst := (List.nodup_cons.mp hnd).1
    rcases List.mem_cons.mp hv with hhd | hvtl
    · cases hhd
      have hb2 : (splitChar ',' v).length = k_list.length := by
        rcases hall (p, v) (List.mem_cons_self _ _) with h | h
        · exact absurd h1 h
        · exact h
      obtain ⟨r, hr, hpres⟩ := failsafeFold_ok_of_all_ok k_list tl htl
        (upsertP acc p (some (k_list.zip (splitChar ',' v))))
      refine ⟨r, ?_, ?_⟩
      · simp only [failsafeFold]
        rw [if_pos h1, if_neg (not_not_intro hb2), hr]
      · rw [hpres p hp0tl, lookupP_upsertP_self]
    · have hp0 : p ≠ p0 := by
        intro h
        exact hp0tl (h ▸ List.mem_map.mpr ⟨(p, v), hvtl, rfl⟩)
      by_cases hb1 : 1 < (splitChar ',' v0).length
      · have hb2 : (splitChar ',' v0).length = k_list.length := by
          rcases hall (p0, v0) (List.mem_cons_self _ _) with h | h
          · exact absurd hb1 h
          · exact h
        obtain ⟨r, hr, hlk⟩ := ih hndtl htl hvtl
          (upsertP acc p0 (some (k_list.zip (splitChar ',' v0))))
        refine ⟨r, ?_, hlk⟩
        simp only [failsafeFold]
        rw [if_pos hb1, if_neg (not_not_intro hb2), hr]
      · obtain ⟨r, hr, hlk⟩ := ih hndtl htl hvtl acc
        exact ⟨r, by simp [failsafeFold, hb1, hr], hlk⟩

/-! ### Helper lemmas about the normalizer -/

theorem getD_replicate_of_lt (a d : ℚ) (n m : ℕ) (h : m < n) :
    (List.replicate n a).getD m d = a := by
  simp [List.getD, List.getElem?_replicate, h]

/-- Evaluation rule for `npPercentile` from its pieces: the floor of the
fractional position and the two neighbouring ranks. -/
theorem npPercentile_eval (l : List ℚ) (p : ℚ) (i : ℕ) (lo hi : ℚ)
    (hfl : ⌊((l.length : ℚ) - 1) * p / 100⌋ = (i : ℤ))
    (hlo : l.getD i 0 = lo) (hhi : l.getD (i + 1) lo = hi) :
    npPercentile l p =
      lo + (((l.length : ℚ) - 1) * p / 100 - (i : ℚ)) * (hi - lo) := by
  unfold npPercentile
  rw [hfl, Int.toNat_natCast, hlo, hhi]
  norm_num

/-- The bug behind C1, in general form: because every draw of K `i` is
divided by the sum over K `i`'s *own* `draws` samples, the mean of every
normalized row is exactly `1 / draws`, whatever the drawn values. -/
theorem npMean_zRow (row : List ℚ) (h : row.sum ≠ 0) :
    npMean (zRow row) = 1 / (row.length : ℚ) := by
  unfold npMean zRow
  have hperm := List.perm_insertionSort (· ≤ ·)
    (row.map (fun v => v / row.sum))
  rw [hperm.sum_eq, hperm.length_eq, List.length_map]
  have hsum : (row.map fun v => v / row.sum).sum = 1 := by
    have h1 : (row.map fun v => v / row.sum).sum =
        (row.map fun v => v * (row.sum)⁻¹).sum := by
      simp [div_eq_mul_inv]
    rw [h1]
    have h2 : (row.map fun v => v * (row.sum)⁻¹).sum =
        (row.map id).sum * (row.sum)⁻¹ := List.sum_map_mul_right ..
    rw [h2, List.map_id]
    exact mul_inv_cancel₀ h
  rw [hsum]

theorem zRow_sorted (row : List ℚ) : (zRow row).Sorted (· ≤ ·) :=
  List.sorted_insertionSort _ _

theorem zRow_mem_bounds (row : List ℚ) (hpos : ∀ v ∈ row, 0 < v) :
    ∀ x ∈ zRow row, 0 ≤ x ∧ x ≤ 1 := by
  intro x hx
  have hx' : x ∈ row.map (fun v => v / row.sum) :=
    (List.perm_insertionSort _ _).mem_iff.mp hx
  obtain ⟨v, hv, rfl⟩ := List.mem_map.mp hx'
  have hrow : row ≠ [] := by
    intro h
    rw [h] at hv
    cases hv
  have hS : 0 < row.sum := List.sum_pos row hpos hrow
  exact ⟨div_nonneg (hpos v hv).le hS.le,
    (div_le_one hS).mpr (List.single_le_sum (fun y hy => (hpos y hy).le) v hv)⟩

theorem npMean_bounds (l : List ℚ) (h01 : ∀ x ∈ l, 0 ≤ x ∧ x ≤ 1) :
    0 ≤ npMean l ∧ npMean l ≤ 1 := by
  unfold npMean
  rcases eq_or_ne l [] with rfl | hne
  · norm_num
  · have hlen : 0 < (l.length : ℚ) := by
      exact_mod_cast List.length_pos.mpr hne
    constructor
    · exact div_nonneg (List.sum_nonneg fun x hx => (h01 x hx).1) hlen.le
    · rw [div_le_one hlen]
      have := List.sum_le_card_nsmul l 1 (fun x hx => (h01 x hx).2)
      simpa using this

theorem floor_toNat_lt (l : List ℚ) (p : ℚ) (hne : l ≠ []) (hp0 : 0 ≤ p)
    (hp1 : p ≤ 100) :
    (⌊((l.length : ℚ) - 1) * p / 100⌋).toNat < l.length := by
  have hn : 1 ≤ l.length := List.length_pos.mpr hne
  have hn1 : 0 ≤ (l.length : ℚ) - 1 := by
    have : (1 : ℚ) ≤ (l.length : ℚ) := by exact_mod_cast hn
    linarith
  have hh1 : ((l.length : ℚ) - 1) * p / 100 ≤ (l.length : ℚ) - 1 := by
    rw [div_le_iff₀ (by norm_num : (0:ℚ) < 100)]
    nlinarith
  have hfl : ⌊((l.length : ℚ) - 1) * p / 100⌋ ≤ (l.length : ℤ) - 1 := by
    calc ⌊((l.length : ℚ) - 1) * p / 100⌋ ≤ ⌊(l.length : ℚ) - 1⌋ :=
          Int.floor_le_floor hh1
      _ = (l.length : ℤ) - 1 := by
          rw [show ((l.length : ℚ) - 1) = (((l.length : ℤ) - 1 : ℤ) : ℚ) by
            push_cast; ring, Int.floor_intCast]
  have h2 := Int.toNat_le_toNat hfl
  omega

theorem floor_pos_nonneg (l : List ℚ) (p : ℚ) (hne : l ≠ []) (hp0 : 0 ≤ p) :
    0 ≤ ⌊((l.length : ℚ) - 1) * p / 100⌋ := by
  apply Int.floor_nonneg.mpr
  apply div_nonneg _ (by norm_num : (0:ℚ) ≤ 100)
  apply mul_nonneg _ hp0
  have : (1 : ℚ) ≤ (l.length : ℚ) := by
    exact_mod_cast List.length_pos.mpr hne
  linarith

theorem sorted_getElem_le (l : List ℚ) (hs : l.Sorted (· ≤ ·)) (i j : ℕ)
    (hij : i ≤ j) (hi : i < l.length) (hj : j < l.length) :
    l[i] ≤ l[j] := by
  rcases lt_or_eq_of_le hij with h | h
  · exact List.Sorted.rel_get_of_lt hs (Fin.mk_lt_mk.mpr h)
  · subst h
    exact le_refl _

/-- On a sorted list with entries in `[0, 1]` the interpolated percentile
stays in `[0, 1]` for every `p` in `[0, 100]`. -/
theorem npPercentile_bounds (l : List ℚ) (p : ℚ) (hs : l.Sorted (· ≤ ·))
    (h01 : ∀ x ∈ l, 0 ≤ x ∧ x ≤ 1) (hp0 : 0 ≤ p) (hp1 : p ≤ 100) :
    0 ≤ npPercentile l p ∧ npPercentile l p ≤ 1 := by
  rcases eq_or_ne l [] with rfl | hne
  · unfold npPercentile
    norm_num
  · have hilt := floor_toNat_lt l p hne hp0 hp1
    have hfl0 := floor_pos_nonneg l p hne hp0
    unfold npPercentile
    set h : ℚ := ((l.length : ℚ) - 1) * p / 100 with hh
    set i : ℕ := (⌊h⌋).toNat with hidef
    have hfrac0 : 0 ≤ h - ((⌊h⌋ : ℤ) : ℚ) := sub_nonneg.mpr (Int.floor_le h)
    have hfrac1 : h - ((⌊h⌋ : ℤ) : ℚ) ≤ 1 := by
      have := Int.lt_floor_add_one h
      push_cast at this ⊢
      linarith
    set lo := l.getD i 0 with hlodef
    have hlomem : lo ∈ l := by
      rw [hlodef, List.getD_eq_getElem l 0 hilt]
      exact List.getElem_mem ..
    have hlob := h01 lo hlomem
    by_cases hi1 : i + 1 < l.length
    · set hiv := l.getD (i + 1) lo with hhidef
      have hhimem : hiv ∈ l := by
        rw [hhidef, List.getD_eq_getElem l lo hi1]
        exact List.getElem_mem ..
      have hhib := h01 hiv hhimem
      have hlohi : lo ≤ hiv := by
        rw [hlodef, hhidef, List.getD_eq_getElem l 0 hilt,
          List.getD_eq_getElem l lo hi1]
        exact sorted_getElem_le l hs i (i + 1) (Nat.le_succ i) hilt hi1
      constructor
      · nlinarith [mul_nonneg hfrac0 (sub_nonneg.mpr hlohi)]
      · nlinarith [mul_le_mul_of_nonneg_right hfrac1 (sub_nonneg.mpr hlohi)]
    · rw [List.getD_eq_default l lo (Nat.le_of_not_lt hi1)]
      constructor
      · nlinarith
      · nlinarith

/-- On a sorted list the interpolated percentile is monotone in `p`. -/
theorem npPercentile_mono (l : List ℚ) (hs : l.Sorted (· ≤ ·))
    (p1 p2 : ℚ) (hp0 : 0 ≤ p1) (h12 : p1 ≤ p2) (hp2 : p2 ≤ 100) :
    npPercentile l p1 ≤ npPercentile l p2 := by
  rcases eq_or_ne l [] with rfl | hne
  · unfold npPercentile
    norm_num
  · have hn1 : 0 ≤ (l.length : ℚ) - 1 := by
      have : (1 : ℚ) ≤ (l.length : ℚ) := by
        exact_mod_cast List.length_pos.mpr hne
      linarith
    have hi2lt := floor_toNat_lt l p2 hne (le_trans hp0 h12) hp2
    have hfl10 := floor_pos_nonneg l p1 hne hp0
    have hfl20 := floor_pos_nonneg l p2 hne (le_trans hp0 h12)
    unfold npPercentile
    set h1 : ℚ := ((l.length : ℚ) - 1) * p1 / 100 with hh1
    set h2 : ℚ := ((l.length : ℚ) - 1) * p2 / 100 with hh2
    have hh12 : h1 ≤ h2 := by
      rw [hh1, hh2]
      exact div_le_div_of_le_of_nonneg
        (mul_le_mul_of_nonneg_left h12 hn1) (by norm_num)
    have hfli : ⌊h1⌋ ≤ ⌊h2⌋ := Int.floor_le_floor hh12
    have hi12 : (⌊h1⌋).toNat ≤ (⌊h2⌋).toNat := Int.toNat_le_toNat hfli
    have hi1lt : (⌊h1⌋).toNat < l.length := lt_of_le_of_lt hi12 hi2lt
    have hfrac10 : 0 ≤ h1 - ((⌊h1⌋ : ℤ) : ℚ) :=
      sub_nonneg.mpr (Int.floor_le h1)
    have hfrac11 : h1 - ((⌊h1⌋ : ℤ) : ℚ) ≤ 1 := by
      have := Int.lt_floor_add_one h1
      push_cast at this ⊢
      linarith
    have hfrac20 : 0 ≤ h2 - ((⌊h2⌋ : ℤ) : ℚ) :=
      sub_nonneg.mpr (Int.floor_le h2)
    by_cases hEq : ⌊h1⌋ = ⌊h2⌋
    · rw [hEq]
      have hfr12 : h1 - ((⌊h2⌋ : ℤ) : ℚ) ≤ h2 - ((⌊h2⌋ : ℤ) : ℚ) := by
        linarith
      by_cases hr : (⌊h2⌋).toNat + 1 < l.length
      · have hlohi : l.getD (⌊h2⌋).toNat 0 ≤
            l.getD ((⌊h2⌋).toNat + 1) (l.getD (⌊h2⌋).toNat 0) := by
          rw [List.getD_eq_getElem l (l.getD (⌊h2⌋).toNat 0) hr,
            List.getD_eq_getElem l 0 hi2lt]
          exact sorted_getElem_le l hs _ _ (Nat.le_succ _) hi2lt hr
        nlinarith [mul_le_mul_of_nonneg_right hfr12 (sub_nonneg.mpr hlohi)]
      · rw [List.getD_eq_default l (l.getD (⌊h2⌋).toNat 0)
          (Nat.le_of_not_lt hr)]
        nlinarith
    · have hlt : ⌊h1⌋ < ⌊h2⌋ := lt_of_le_of_ne hfli hEq
      have hi1i2 : (⌊h1⌋).toNat + 1 ≤ (⌊h2⌋).toNat := by omega
      have hi11lt : (⌊h1⌋).toNat + 1 < l.length := lt_of_le_of_lt hi1i2 hi2lt
      have hlohi1 : l.getD (⌊h1⌋).toNat 0 ≤
          l.getD ((⌊h1⌋).toNat + 1) (l.getD (⌊h1⌋).toNat 0) := by
        rw [List.getD_eq_getElem l (l.getD (⌊h1⌋).toNat 0) hi11lt,
          List.getD_eq_getElem l 0 hi1lt]
        exact sorted_getElem_le l hs _ _ (Nat.le_succ _) hi1lt hi11lt
      have hA : l.getD (⌊h1⌋).toNat 0 +
          (h1 - ((⌊h1⌋ : ℤ) : ℚ)) *
            (l.getD ((⌊h1⌋).toNat + 1) (l.getD (⌊h1⌋).toNat 0) -
              l.getD (⌊h1⌋).toNat 0) ≤
          l.getD ((⌊h1⌋).toNat + 1) (l.getD (⌊h1⌋).toNat 0) := by
        nlinarith [mul_le_mul_of_nonneg_right hfrac11
          (sub_nonneg.mpr hlohi1)]
      have hB : l.getD ((⌊h1⌋).toNat + 1) (l.getD (⌊h1⌋).toNat 0) ≤
          l.getD (⌊h2⌋).toNat 0 := by
        rw [List.getD_eq_getElem l (l.getD (⌊h1⌋).toNat 0) hi11lt,
          List.getD_eq_getElem l 0 hi2lt]
        exact sorted_getElem_le l hs _ _ hi1i2 hi11lt hi2lt
      have hC : l.getD (⌊h2⌋).toNat 0 ≤ l.getD (⌊h2⌋).toNat 0 +
          (h2 - ((⌊h2⌋ : ℤ) : ℚ)) *
            (l.getD ((⌊h2⌋).toNat + 1) (l.getD (⌊h2⌋).toNat 0) -
              l.getD (⌊h2⌋).toNat 0) := by
        by_cases hr : (⌊h2⌋).toNat + 1 < l.length
        · have hlohi2 : l.getD (⌊h2⌋).toNat 0 ≤
              l.getD ((⌊h2⌋).toNat + 1) (l.getD (⌊h2⌋).toNat 0) := by
            rw [List.getD_eq_getElem l (l.getD (⌊h2⌋).toNat 0) hr,
              List.getD_eq_getElem l 0 hi2lt]
            exact sorted_getElem_le l hs _ _ (Nat.le_succ _) hi2lt hr
          nlinarith [mul_nonneg hfrac20 (sub_nonneg.mpr hlohi2)]
        · rw [List.getD_eq_default l (l.getD (⌊h2⌋).toNat 0)
            (Nat.le_of_not_lt hr)]
          nlinarith
      linarith

/-! ### Helper lemmas about the parameter-file query -/

theorem splitWsAux_append (k rest acc : List Char)
    (h : ∀ c ∈ k, isWs c = false) :
    splitWsAux (k ++ rest) acc = splitWsAux rest (k.reverse ++ acc) := by
  induction k generalizing acc with
  | nil => simp
  | cons c k' ih =>
    have hc : isWs c = false := h c (List.mem_cons_self _ _)
    have h' : ∀ x ∈ k', isWs x = false :=
      fun x hx => h x (List.mem_cons_of_mem _ hx)
    simp only [List.cons_append, splitWsAux, hc, Bool.false_eq_true,
      if_false]
    show splitWsAux (k' ++ rest) (c :: acc) = _
    rw [ih (c :: acc) h', List.reverse_cons, List.append_assoc]
    rfl

/-- Splitting a line that starts with a nonempty whitespace-free key
followed by a tab yields that key as first token. -/
theorem splitWs_key_tab (k rest : List Char) (hk : k ≠ [])
    (hws : ∀ c ∈ k, isWs c = false) :
    splitWs (k ++ '\t' :: rest) = k :: splitWs rest := by
  unfold splitWs
  rw [splitWsAux_append k ('\t' :: rest) [] hws]
  simp only [List.append_nil]
  rw [splitWsAux]
  rw [if_pos (by decide : isWs '\t' = true)]
  rw [if_neg (fun h => hk (List.reverse_eq_nil_iff.mp h))]
  rw [List.reverse_reverse]

/-- A line accepted by the sanitised-query test decomposes as a query
key, a tab and a remainder, and its first whitespace token is that
key. -/
theorem lineMatches_elim (query : List Line) (l : Line)
    (hq : ∀ q ∈ query, q ≠ [] ∧ ∀ c ∈ q, isWs c = false)
    (h : lineMatches query l = true) :
    ∃ q ∈ query, ∃ rest, l = q ++ '\t' :: rest ∧
      splitWs l = q :: splitWs rest := by
  obtain ⟨q, hqmem, hpref⟩ := List.any_eq_true.mp h
  obtain ⟨t, ht⟩ := List.isPrefixOf_iff_prefix.mp hpref
  have hl : l = q ++ '\t' :: t := by
    rw [← ht, List.append_assoc]
    rfl
  exact ⟨q, hqmem, t, hl, by
    rw [hl]
    exact splitWs_key_tab q t (hq q hqmem).1 (hq q hqmem).2⟩

theorem isPrefixOf_key_tab (q rest : List Char) :
    (q ++ ['\t']).isPrefixOf (q ++ '\t' :: rest) = true :=
  List.isPrefixOf_iff_prefix.mpr ⟨rest, by simp⟩

theorem mem_upsertP_elim {β : Type} (acc : List (Line × β))
    (k0 k : Line) (v0 v : β) (h : (k, v) ∈ upsertP acc k0 v0) :
    (k, v) ∈ acc ∨ (k = k0 ∧ v = v0) := by
  induction acc with
  | nil =>
    simp only [upsertP, List.mem_singleton] at h
    exact Or.inr (Prod.mk.injEq .. ▸ h)
  | cons hd tl ih =>
    obtain ⟨k', v'⟩ := hd
    by_cases hk : k' = k0
    · simp only [upsertP, if_pos hk, List.mem_cons] at h
      rcases h with h | h
      · exact Or.inr (Prod.mk.injEq .. ▸ h)
      · exact Or.inl (List.mem_cons_of_mem _ h)
    · simp only [upsertP, if_neg hk, List.mem_cons] at h
      rcases h with h | h
      · exact Or.inl (h ▸ List.mem_cons_self _ _)
      · rcases ih h with h' | h'
        · exact Or.inl (List.mem_cons_of_mem _ h')
        · exact Or.inr h'

theorem self_mem_upsertP {β : Type} (acc : List (Line × β)) (k0 : Line)
    (v0 : β) : (k0, v0) ∈ upsertP acc k0 v0 := by
  induction acc with
  | nil => simp [upsertP]
  | cons hd tl ih =>
    obtain ⟨k', v'⟩ := hd
    by_cases hk : k' = k0
    · simp [upsertP, hk]
    · simp only [upsertP, if_neg hk]
      exact List.mem_cons_of_mem _ ih

theorem exists_mem_upsertP {β : Type} (acc : List (Line × β))
    (k0 k : Line) (v0 : β) (h : ∃ v, (k, v) ∈ acc) :
    ∃ v, (k, v) ∈ upsertP acc k0 v0 := by
  by_cases hkk : k = k0
  · exact ⟨v0, hkk ▸ self_mem_upsertP acc k0 v0⟩
  · obtain ⟨v, hv⟩ := h
    refine ⟨v, ?_⟩
    induction acc with
    | nil => cases hv
    | cons hd tl ih =>
      obtain ⟨k', v'⟩ := hd
      by_cases hk : k' = k0
      · rcases List.mem_cons.mp hv with h' | h'
        · exact absurd (congrArg Prod.fst h') (by simpa [hk] using hkk)
        · simp only [upsertP, if_pos hk]
          exact List.mem_cons_of_mem _ h'
      · simp only [upsertP, if_neg hk]
        rcases List.mem_cons.mp hv with h' | h'
        · exact h' ▸ List.mem_cons_self _ _
        · exact List.mem_cons_of_mem _ (ih h')

/-- The main induction for `mav_params_parser`'s loop: given a sane
query (nonempty, whitespace-free keys) and matching lines with at least
two tokens, the loop never raises, its entries all come from the
accumulator or from a matching line (keyed by a requested key, valued by
the line's second token), keys present in the accumulator survive, and
every requested key with a matching line ends up present. -/
theorem parseLinesAux_spec (query : List Line)
    (hq : ∀ q ∈ query, q ≠ [] ∧ ∀ c ∈ q, isWs c = false) :
    ∀ (lines : List Line),
    (∀ l ∈ lines, lineMatches query l = true → 2 ≤ (splitWs l).length) →
    ∀ acc, ∃ r, parseLinesAux query lines acc = .ok r ∧
      (∀ k v, (k, v) ∈ r → (k, v) ∈ acc ∨
        (k ∈ query ∧ ∃ l ∈ lines, (k ++ ['\t']).isPrefixOf l = true ∧
          (splitWs l).get? 1 = some v)) ∧
      (∀ k, (∃ v, (k, v) ∈ acc) → ∃ v, (k, v) ∈ r) ∧
      (∀ k ∈ query, (∃ l ∈ lines, (k ++ ['\t']).isPrefixOf l = true) →
        ∃ v, (k, v) ∈ r) := by
  intro lines
  induction lines with
  | nil =>
    intro _ acc
    refine ⟨acc, rfl, fun k v h => Or.inl h, fun k h => h, ?_⟩
    rintro k - ⟨l, hl, -⟩
    cases hl
  | cons l ls ih =>
    intro hlines acc
    by_cases hm : lineMatches query l = true
    · obtain ⟨q0, hq0mem, rest0, hl, hsplit⟩ :=
        lineMatches_elim query l hq hm
      obtain ⟨t1, ts, hrest⟩ : ∃ t1 ts, splitWs rest0 = t1 :: ts := by
        have h2 := hlines l (List.mem_cons_self _ _) hm
        rw [hsplit] at h2
        cases hr : splitWs rest0 with
        | nil => rw [hr] at h2; exact absurd h2 (by simp)
        | cons a b => exact ⟨a, b, rfl⟩
      have hsplit' : splitWs l = q0 :: t1 :: ts := by rw [hsplit, hrest]
      obtain ⟨r, hr, hprov, hpres, hkeys⟩ :=
        ih (fun x hx => hlines x (List.mem_cons_of_mem _ hx))
          (upsertP acc q0 t1)
      refine ⟨r, ?_, ?_, ?_, ?_⟩
      · simp only [parseLinesAux, hm, if_true, hsplit']
        exact hr
      · intro k v h
        rcases hprov k v h with h' | h'
        · rcases mem_upsertP_elim acc q0 k t1 v h' with h'' | ⟨hk, hv⟩
          · exact Or.inl h''
          · refine Or.inr ⟨by rw [hk]; exact hq0mem, l,
              List.mem_cons_self _ _, ?_, ?_⟩
            · rw [hk, hl]; exact isPrefixOf_key_tab q0 rest0
            · rw [hsplit', hv]; rfl
        · obtain ⟨hkq, l', hl', hpref, hval⟩ := h'
          exact Or.inr ⟨hkq, l', List.mem_cons_of_mem _ hl', hpref, hval⟩
      · intro k hk
        exact hpres k (exists_mem_upsertP acc q0 k t1 hk)
      · rintro k hkq ⟨l', hl', hpref⟩
        rcases List.mem_cons.mp hl' with h' | h'
        · have hkq0 : k = q0 := by
            obtain ⟨t, ht⟩ := List.isPrefixOf_iff_prefix.mp (h' ▸ hpref)
            have hlk : l = k ++ '\t' :: t := by
              rw [← ht, List.append_assoc]; rfl
            have : splitWs l = k :: splitWs t := by
              rw [hlk]
              exact splitWs_key_tab k t (hq k hkq).1 (hq k hkq).2
            have hq0k : q0 :: splitWs rest0 = k :: splitWs t := by
              rw [← hsplit]; exact this
            exact (List.cons.injEq .. ▸ hq0k).1.symm
          subst hkq0
          exact hpres k ⟨t1, self_mem_upsertP acc k t1⟩
        · exact hkeys k hkq ⟨l', h', hpref⟩
    · have hm' : lineMatches query l = false := by
        cases h : lineMatches query l
        · rfl
        · exact absurd h hm
      obtain ⟨r, hr, hprov, hpres, hkeys⟩ :=
        ih (fun x hx => hlines x (List.mem_cons_of_mem _ hx)) acc
      refine ⟨r, ?_, ?_, hpres, ?_⟩
      · simp only [parseLinesAux, hm', Bool.false_eq_true, if_false]
        exact hr
      · intro k v h
        rcases hprov k v h with h' | ⟨hkq, l', hl', hpref, hval⟩
        · exact Or.inl h'
        · exact Or.inr ⟨hkq, l', List.mem_cons_of_mem _ hl', hpref, hval⟩
      · rintro k hkq ⟨l', hl', hpref⟩
        rcases List.mem_cons.mp hl' with h' | h'
        · subst h'
          exact absurd (List.any_eq_true.mpr ⟨k, hkq, hpref⟩)
            (by rw [lineMatches] at hm; exact hm)
        · exact hkeys k hkq ⟨l', h', hpref⟩

/-! ### Claim theorems -/

/-- C1: the claim says each Monte-Carlo trial's exponentiated draws are
divided by the sum of that trial's samples across all K, so the
posterior means over K sum to 1.  The code instead divides each K's
draws by the sum of that K's *own* `draws` samples
(`z_array[i] = np.sort(y_array / sum(y_array))` where `y_array` holds
only K number `i`'s draws), so every `norm_mean` equals `1 / draws`
exactly: here with 2 Ks and 4 draws per K both posterior means are
`1/4` and their sum is `1/2`, not 1 — independent of the drawn
values. -/
theorem c1_per_row_normalization_bug :
    (maverick_normalization [[1, 2, 3, 4], [5, 5, 2, 8]] [1, 2] 95).map
      (fun kr => kr.2.norm_mean) = [1/4, 1/4] ∧
    ((maverick_normalization [[1, 2, 3, 4], [5, 5, 2, 8]] [1, 2] 95).map
      (fun kr => kr.2.norm_mean)).sum = 1/2 ∧
    ((1 : ℚ)/2 ≠ 1) := by
  have h1 : npMean (zRow [1, 2, 3, 4]) = 1/4 := by
    rw [npMean_zRow _ (by norm_num)]
    norm_num
  have h2 : npMean (zRow [5, 5, 2, 8]) = 1/4 := by
    rw [npMean_zRow _ (by norm_num)]
    norm_num
  refine ⟨?_, ?_, by norm_num⟩
  · simp only [maverick_normalization, List.zip_cons_cons,
      List.zip_nil_right, List.map_cons, List.map_nil, h1, h2]
  · simp only [maverick_normalization, List.zip_cons_cons,
      List.zip_nil_right, List.map_cons, List.map_nil, h1, h2,
      List.sum_cons, List.sum_nil]
    norm_num

/-- C9 counterexample: the claim states
`0 ≤ lower_limit ≤ posterior_mean ≤ upper_limit ≤ 1` for every output
record.  With the default `limit = 95` and 42 draws for a single K,
drawn as one sample `1/2` and 41 samples `1`, the sorted normalized row
is `1/83` followed by 41 copies of `2/83`; the 2.5th percentile sits at
fractional rank `1.025`, giving `lower_limit = 2/83`, while
`posterior_mean = 1/42 < 2/83` — so `lower_limit ≤ posterior_mean`
fails.  (Symmetrically, with `limit = 0` — both limits the median — and
draws `[1, 1, 4]`, `posterior_mean = 1/3` exceeds
`upper_limit = 1/6`.) -/
theorem c9_counterexample :
    maverick_normalization [(1/2 : ℚ) :: List.replicate 41 1] [7] 95 =
      [(7, ⟨npMean ((1/83 : ℚ) :: List.replicate 41 (2/83)),
            npPercentile ((1/83 : ℚ) :: List.replicate 41 (2/83)) (5/2),
            npPercentile ((1/83 : ℚ) :: List.replicate 41 (2/83))
              (195/2)⟩)] ∧
    npMean ((1/83 : ℚ) :: List.replicate 41 (2/83)) = 1/42 ∧
    npPercentile ((1/83 : ℚ) :: List.replicate 41 (2/83)) (5/2) = 2/83 ∧
    ¬((2 : ℚ)/83 ≤ 1/42) ∧
    maverick_normalization [[1, 1, 4]] [3] 0 = [(3, ⟨1/3, 1/6, 1/6⟩)] ∧
    ¬((1 : ℚ)/3 ≤ 1/6) := by
  have hsort : ((1/83 : ℚ) :: List.replicate 41 (2/83)).Sorted (· ≤ ·) := by
    rw [List.sorted_cons]
    refine ⟨fun b hb => ?_, List.pairwise_replicate.mpr (Or.inr le_rfl)⟩
    rw [(List.eq_of_mem_replicate hb : b = 2/83)]
    norm_num
  have hz : zRow ((1/2 : ℚ) :: List.replicate 41 1) =
      (1/83 : ℚ) :: List.replicate 41 (2/83) := by
    unfold zRow
    have hsum : ((1/2 : ℚ) :: List.replicate 41 1).sum = 83/2 := by
      rw [List.sum_cons, List.sum_replicate]
      norm_num
    rw [hsum]
    have hmap : ((1/2 : ℚ) :: List.replicate 41 1).map
        (fun v => v / (83/2)) =
        (1/83 : ℚ) :: List.replicate 41 (2/83) := by
      rw [List.map_cons, List.map_replicate]
      norm_num
    rw [hmap]
    exact hsort.insertionSort_eq
  have hmean : npMean ((1/83 : ℚ) :: List.replicate 41 (2/83)) = 1/42 := by
    unfold npMean
    rw [List.sum_cons, List.sum_replicate, List.length_cons,
      List.length_replicate]
    norm_num
  have hlow : npPercentile ((1/83 : ℚ) :: List.replicate 41 (2/83)) (5/2) =
      2/83 := by
    rw [npPercentile_eval ((1/83 : ℚ) :: List.replicate 41 (2/83)) (5/2) 1
      (2/83) (2/83)
      (by rw [List.length_cons, List.length_replicate]; norm_num)
      (by rw [List.getD_cons_succ]
          exact getD_replicate_of_lt (2/83) 0 41 0 (by norm_num))
      (by rw [List.getD_cons_succ]
          exact getD_replicate_of_lt (2/83) (2/83) 41 1 (by norm_num))]
    norm_num
  refine ⟨?_, hmean, hlow, by norm_num, ?_, by norm_num⟩
  · simp only [maverick_normalization, List.zip_cons_cons,
      List.zip_nil_right, List.map_cons, List.map_nil, hz]
    norm_num
  · norm_num [maverick_normalization, zRow, npMean, npPercentile,
      List.insertionSort, List.orderedInsert, List.getD,
      List.getElem?_cons_succ, List.getElem?_cons_zero, Option.getD]

/-- C9 amended: for every draw matrix of positive values (nonempty per
K) and every `limit` in `[0, 100]`, each output record satisfies
`0 ≤ lower_limit ≤ upper_limit ≤ 1` and `0 ≤ posterior_mean ≤ 1`, with
the limits the `(100 - limit)/2`-th and `100 - (100 - limit)/2`-th
percentiles of the sorted shares (2.5 and 97.5 for the default 95) and
`posterior_mean` their arithmetic mean; the claim's stronger chain
`lower_limit ≤ posterior_mean ≤ upper_limit` does not hold for every
draw outcome (see the counterexample). -/
theorem c9_amended (y : List (List ℚ)) (klist : List Nat) (limit : ℚ)
    (hy : ∀ row ∈ y, row ≠ [] ∧ ∀ v ∈ row, 0 < v)
    (h0 : 0 ≤ limit) (h100 : limit ≤ 100) :
    ∀ kr ∈ maverick_normalization y klist limit,
      0 ≤ kr.2.lower_limit ∧ kr.2.lower_limit ≤ kr.2.upper_limit ∧
      kr.2.upper_limit ≤ 1 ∧ 0 ≤ kr.2.norm_mean ∧ kr.2.norm_mean ≤ 1 := by
  intro kr hkr
  unfold maverick_normalization at hkr
  obtain ⟨⟨k, row⟩, hmem, rfl⟩ := List.mem_map.mp hkr
  have hrow := hy row (List.of_mem_zip hmem).2
  have hz01 := zRow_mem_bounds row hrow.2
  have hsorted := zRow_sorted row
  have hl0 : (0 : ℚ) ≤ (100 - limit) / 2 := by linarith
  have hl100 : (100 - limit) / 2 ≤ 100 := by linarith
  have hlu : (100 - limit) / 2 ≤ 100 - (100 - limit) / 2 := by linarith
  have hu100 : 100 - (100 - limit) / 2 ≤ 100 := by linarith
  have hb1 := npPercentile_bounds (zRow row) ((100 - limit) / 2)
    hsorted hz01 hl0 hl100
  have hb2 := npPercentile_bounds (zRow row) (100 - (100 - limit) / 2)
    hsorted hz01 (by linarith) hu100
  have hm := npMean_bounds (zRow row) hz01
  have hmono := npPercentile_mono (zRow row) hsorted ((100 - limit) / 2)
    (100 - (100 - limit) / 2) hl0 hlu hu100
  exact ⟨hb1.1, hmono, hb2.2, hm.1, hm.2⟩

/-- Witness for C9 amended: a single K with draws `[1, 3]` at the
default limit yields the record
`{norm_mean 1/2, lower_limit 21/80, upper_limit 59/80}`, which
satisfies all the amended bounds. -/
theorem c9_amended_witness :
    ((∀ row ∈ [[(1 : ℚ), 3]], row ≠ [] ∧ ∀ v ∈ row, 0 < v) ∧
      (0 : ℚ) ≤ 95 ∧ (95 : ℚ) ≤ 100 ∧
      ((1 : ℕ), (⟨1/2, 21/80, 59/80⟩ : NormRec)) ∈
        maverick_normalization [[(1 : ℚ), 3]] [1] 95) ∧
    (0 ≤ (⟨(1 : ℚ)/2, 21/80, 59/80⟩ : NormRec).lower_limit ∧
      (⟨(1 : ℚ)/2, 21/80, 59/80⟩ : NormRec).lower_limit ≤
        (⟨(1 : ℚ)/2, 21/80, 59/80⟩ : NormRec).upper_limit ∧
      (⟨(1 : ℚ)/2, 21/80, 59/80⟩ : NormRec).upper_limit ≤ 1 ∧
      0 ≤ (⟨(1 : ℚ)/2, 21/80, 59/80⟩ : NormRec).norm_mean ∧
      (⟨(1 : ℚ)/2, 21/80, 59/80⟩ : NormRec).norm_mean ≤ 1) := by
  have heval : maverick_normalization [[(1 : ℚ), 3]] [1] 95 =
      [(1, ⟨1/2, 21/80, 59/80⟩)] := by
    norm_num [maverick_normalization, zRow, npMean, npPercentile,
      List.insertionSort, List.orderedInsert, List.getD,
      List.getElem?_cons_succ, List.getElem?_cons_zero, Option.getD]
    norm_num [Int.fract]
  refine ⟨⟨?_, by norm_num, by norm_num, ?_⟩, ?_⟩
  · intro row hrow
    rw [List.mem_singleton.mp hrow]
    refine ⟨by simp, fun v hv => ?_⟩
    rcases List.mem_cons.mp hv with rfl | hv'
    · norm_num
    · rw [List.mem_singleton.mp hv']
      norm_num
  · rw [heval]
    exact List.mem_singleton.mpr rfl
  · exact c9_amended [[(1 : ℚ), 3]] [1] 95
      (by
        intro row hrow
        rw [List.mem_singleton.mp hrow]
        refine ⟨by simp, fun v hv => ?_⟩
        rcases List.mem_cons.mp hv with rfl | hv'
        · norm_num
        · rw [List.mem_singleton.mp hv']
          norm_num)
      (by norm_num) (by norm_num) ((1 : ℕ), ⟨1/2, 21/80, 59/80⟩)
      (by rw [heval]; exact List.mem_singleton.mpr rfl)

/-- C2: the claim says that with thermodynamic-integration testing
enabled (`no_tests = False`) the merger selects the K with maximal TI
mean log-evidence, writes a verdict file under `bestK` and returns that
K.  In the code, the branch `if no_tests is False:` evaluates the name
`log_evidence_mv`, which is bound nowhere in `maverick_merger`, so the
run ends in a `NameError` after writing only the two merged tables and
no `bestK` verdict file; moreover `_ti_test` itself would compute
`max(...).replace("K", "1")`, turning the best key "K2" into "12", so
even in isolation it returns `[12]` instead of `[2]` (and its verdict
sentence names 12). -/
theorem c2_ti_test_name_error :
    (maverick_merger demoFS demoOut [1, 2, 3] demoParams false).err =
      some (.pyerr .nameError) ∧
    (maverick_merger demoFS demoOut [1, 2, 3] demoParams false).writes.map
        Prod.fst =
      ["out/merged/outputEvidence.csv".toList,
       "out/merged/outputEvidenceDetails.csv".toList] ∧
    _ti_test demoOut [("K1".toList, 1), ("K2".toList, 5), ("K3".toList, 2)] =
      some ((("out/bestK/TI_integration.txt").toList,
        ("MavericK's estimation test revealed " ++
         "that the best value of 'K' is: 12\n").toList), [12]) := by
  decide

/-- C3: the claim says every successful merge run writes a normalized
evidence table under the configured or default filename.  The merger
never calls `_write_normalized_output`: a successful run writes exactly
the merged per-K tables and nothing named `outputEvidenceNormalised.csv`;
and `_write_normalized_output` itself contains no write call and raises
`TypeError` on its first loop iteration (it subscripts the evidence dict
with a list key). -/
theorem c3_no_normalized_output :
    (maverick_merger demoFS demoOut [1, 2, 3] demoParams true).err = none ∧
    (maverick_merger demoFS demoOut [1, 2, 3] demoParams true).writes.map
        Prod.fst =
      ["out/merged/outputEvidence.csv".toList,
       "out/merged/outputEvidenceDetails.csv".toList] ∧
    ((maverick_merger demoFS demoOut [1, 2, 3] demoParams true).writes.map
        Prod.fst).contains "out/merged/outputEvidenceNormalised.csv".toList =
      false ∧
    _write_normalized_output demoParams = .error .typeError := by
  decide

/-- C4: the claim says merging N per-K fragments with identical headers
yields 1 header line followed by exactly N data lines in KList order.
The code writes the first fragment whole (its data line keeps its
trailing newline) but writes `diff[1]` — the bare second line, with no
newline — for every later K, so for `k_list = [1, 2, 3]` the merged
primary file is `"h\nd1\nd2d3"`: one header line and only two data
lines, the rows of K=2 and K=3 concatenated on a single line. -/
theorem c4_data_rows_concatenated :
    maverick_merger demoFS demoOut [1, 2, 3] demoParams true =
      ⟨[("out/merged/outputEvidence.csv".toList, "h\nd1\nd2d3".toList),
        ("out/merged/outputEvidenceDetails.csv".toList, "x\ne1\ne2e3".toList)],
       none⟩ ∧
    splitChar '\n' "h\nd1\nd2d3".toList =
      ["h".toList, "d1".toList, "d2d3".toList] := by
  decide

/-- C5 counterexample: the claim says that when the per-K fragment is
missing for K=2 (K=1 and K=3 present), the merge fails *without writing
a partial merged file* (merged output unchanged).  The merge does fail
with the missing-file error, but the merged outfile was already opened
with mode "w" before the per-K loop, so a partial merged file holding
K=1's fragment exists. -/
theorem c5_counterexample :
    maverick_merger (missingFS "h\nd1\n".toList) demoOut [1, 2, 3]
        demoParams true =
      ⟨[("out/merged/outputEvidence.csv".toList, "h\nd1\n".toList)],
       some (.pyerr .fileNotFoundError)⟩ := by
  decide

/-- C5 amended: when the per-K fragment of the primary evidence file is
missing for K=2 while K=1 and K=3 exist, the merge does fail with the
fatal missing-file error (an uncaught `FileNotFoundError`), but the
merged output file for that logical output has already been created
(truncated by `open(..., "w")`) and holds the fragment of K=1, i.e. of
the Ks processed before the missing one — the merged output is *not*
left unchanged.  `c1` is any K=1 fragment with at least two lines. -/
theorem c5_amended (c1 : Line) (l0 l1 : Line) (rest : List Line)
    (hc : splitChar '\n' c1 = l0 :: l1 :: rest) :
    maverick_merger (missingFS c1) demoOut [1, 2, 3] demoParams true =
      ⟨[("out/merged/outputEvidence.csv".toList, c1)],
       some (.pyerr .fileNotFoundError)⟩ := by
  have hgen : _gen_files_list demoParams true =
      .ok (["outputEvidence.csv".toList, "outputEvidenceDetails.csv".toList],
        true) := by decide
  have hlook1 : lookupP (missingFS c1)
      (pathJoin (pathJoin demoOut (mavKName 1)) "outputEvidence.csv".toList) =
      some c1 := by
    simp only [missingFS, lookupP, if_pos]
  have hlook2 : lookupP (missingFS c1)
      (pathJoin (pathJoin demoOut (mavKName 2)) "outputEvidence.csv".toList) =
      none := by
    simp only [missingFS, frag, lookupP]
    rw [if_neg (by decide), if_neg (by decide)]
  have hget : (splitChar '\n' c1).get? 1 = some l1 := by rw [hc]; rfl
  have hstep1 : mergeStep (missingFS c1) demoOut "outputEvidence.csv".toList
      ⟨[], true, .empty⟩ 1 = .ok ⟨c1, false,
        .built (((splitChar ',' ((splitChar '\n' c1).headD [])).zip
          (splitChar ',' l1)).foldl
            (fun acc jk => upsertP acc jk.1 [jk.2]) [])⟩ := by
    simp only [mergeStep, hlook1, mav_output_parse, evUpdate, hget]
    rfl
  have hstep2 : ∀ st : FileSt, st.content = c1 →
      mergeStep (missingFS c1) demoOut "outputEvidence.csv".toList st 2 =
        .error (.fileNotFoundError, c1) := by
    intro st hst
    simp only [mergeStep, hlook2, hst]
  have hloop : mergeFileLoop (missingFS c1) demoOut
      "outputEvidence.csv".toList [1, 2, 3] ⟨[], true, .empty⟩ =
      (c1, some .fileNotFoundError) := by
    simp only [mergeFileLoop, hstep1]
    rw [hstep2 _ rfl]
  have hpath : pathJoin (pathJoin demoOut "merged".toList)
      "outputEvidence.csv".toList = "out/merged/outputEvidence.csv".toList := by
    decide
  simp only [maverick_merger, hgen]
  rw [filesLoop, if_pos (by decide)]
  rw [hloop]
  simp only [List.nil_append, hpath]

/-- Witness for C5 amended: the two-line K=1 fragment `"h\nq1\n"`. -/
theorem c5_amended_witness :
    splitChar '\n' "h\nq1\n".toList = ["h".toList, "q1".toList, []] ∧
    maverick_merger (missingFS "h\nq1\n".toList) demoOut [1, 2, 3]
        demoParams true =
      ⟨[("out/merged/outputEvidence.csv".toList, "h\nq1\n".toList)],
       some (.pyerr .fileNotFoundError)⟩ :=
  ⟨by decide,
   c5_amended "h\nq1\n".toList "h".toList "q1".toList [[]] (by decide)⟩

/-- C7 counterexample: the claim says that for *every* valid KList and
a value with exactly `len(KList)` comma-separated tokens the resolver
returns a per-K mapping.  For the valid KList `[2]` and the value `"7"`
(exactly one token, which is `len(KList)`), the code takes the
single-token branch and leaves the parameter as the constant marker
`False` (here `none`) — no per-K mapping is returned. -/
theorem c7_counterexample :
    mav_alpha_failsafe ["alpha\t7".toList] [2] =
      .ok [(alphaKey, none), (alphaPSDKey, none)] ∧
    lookupP [(alphaKey, (none : Option (List (Nat × Line)))),
             (alphaPSDKey, none)] alphaKey ≠ some (some [(2, "7".toList)]) :=
  ⟨by decide, by decide⟩

/-- C10: for every parameter file and requested key collection (keys
being nonempty and whitespace-free, and matching lines carrying at least
a key and a value token, as in a well-formed key-value file), the query
(1) returns `None` exactly when no requested key matched any line, where
a line matches exactly when it starts with a requested key followed by a
tab (so `alpha` never matches `alphaPropSD`); (2) otherwise returns
entries exactly for the subset of requested keys that matched some line,
each mapped to the second whitespace-separated token of a line it
matched; and (3) never fails. -/
theorem c10_params_query (fileLines query : List Line)
    (hq : ∀ q ∈ query, q ≠ [] ∧ ∀ c ∈ q, isWs c = false)
    (hlines : ∀ l ∈ fileLines, lineMatches query l = true →
      2 ≤ (splitWs l).length) :
    (mav_params_parse fileLines query = .ok none ↔
      ∀ l ∈ fileLines, lineMatches query l = false) ∧
    (∀ d, mav_params_parse fileLines query = .ok (some d) →
      (∀ k v, (k, v) ∈ d → k ∈ query ∧ ∃ l ∈ fileLines,
        (k ++ ['\t']).isPrefixOf l = true ∧ (splitWs l).get? 1 = some v) ∧
      (∀ k ∈ query, (∃ l ∈ fileLines, (k ++ ['\t']).isPrefixOf l = true) →
        ∃ v, (k, v) ∈ d)) ∧
    (∀ e, mav_params_parse fileLines query ≠ .error e) := by
  obtain ⟨r, hr, hprov, hpres, hkeys⟩ :=
    parseLinesAux_spec query hq fileLines hlines []
  have hprov' : ∀ k v, (k, v) ∈ r → k ∈ query ∧ ∃ l ∈ fileLines,
      (k ++ ['\t']).isPrefixOf l = true ∧ (splitWs l).get? 1 = some v :=
    fun k v h => (hprov k v h).resolve_left (by simp)
  cases r with
  | nil =>
    have hparse : mav_params_parse fileLines query = .ok none := by
      simp only [mav_params_parse, hr]
    refine ⟨⟨fun _ => ?_, fun _ => hparse⟩, fun d hd => ?_, fun e he => ?_⟩
    · intro l hlmem
      cases hml : lineMatches query l with
      | false => rfl
      | true =>
        obtain ⟨q0, hq0mem, rest0, hl, -⟩ :=
          lineMatches_elim query l hq hml
        obtain ⟨v, hv⟩ := hkeys q0 hq0mem
          ⟨l, hlmem, by rw [hl]; exact isPrefixOf_key_tab q0 rest0⟩
        cases hv
    · rw [hparse] at hd
      cases Except.ok.inj hd
    · rw [hparse] at he
      cases he
  | cons hd0 tl =>
    have hparse : mav_params_parse fileLines query = .ok (some (hd0 :: tl)) := by
      simp only [mav_params_parse, hr]
    refine ⟨⟨fun habs => ?_, fun hall => ?_⟩, fun d hd => ?_, fun e he => ?_⟩
    · rw [hparse] at habs
      cases Except.ok.inj habs
    · exfalso
      obtain ⟨k0, v0⟩ := hd0
      obtain ⟨hkq, l, hlmem, hpref, -⟩ :=
        hprov' k0 v0 (List.mem_cons_self _ _)
      have : lineMatches query l = true :=
        List.any_eq_true.mpr ⟨k0, hkq, hpref⟩
      rw [hall l hlmem] at this
      cases this
    · rw [hparse] at hd
      cases Option.some.inj (Except.ok.inj hd)
      exact ⟨hprov', fun k hkq hex => hkeys k hkq hex⟩
    · rw [hparse] at he
      cases he

/-- Witness for C10: query `["alpha"]` against a file whose first line
is keyed `alphaPropSD` and whose second is keyed `alpha`: the result
holds `alpha -> "0.5"` and nothing for the `alphaPropSD` line. -/
theorem c10_params_query_witness :
    ((∀ q ∈ [alphaKey], q ≠ [] ∧ ∀ c ∈ q, isWs c = false) ∧
     (∀ l ∈ ["alphaPropSD\t0.1".toList, "alpha\t0.5".toList],
       lineMatches [alphaKey] l = true → 2 ≤ (splitWs l).length)) ∧
    ((mav_params_parse ["alphaPropSD\t0.1".toList, "alpha\t0.5".toList]
        [alphaKey] = .ok none ↔
      ∀ l ∈ ["alphaPropSD\t0.1".toList, "alpha\t0.5".toList],
        lineMatches [alphaKey] l = false) ∧
     (∀ d, mav_params_parse ["alphaPropSD\t0.1".toList,
        "alpha\t0.5".toList] [alphaKey] = .ok (some d) →
      (∀ k v, (k, v) ∈ d → k ∈ [alphaKey] ∧
        ∃ l ∈ ["alphaPropSD\t0.1".toList, "alpha\t0.5".toList],
          (k ++ ['\t']).isPrefixOf l = true ∧
          (splitWs l).get? 1 = some v) ∧
      (∀ k ∈ [alphaKey],
        (∃ l ∈ ["alphaPropSD\t0.1".toList, "alpha\t0.5".toList],
          (k ++ ['\t']).isPrefixOf l = true) → ∃ v, (k, v) ∈ d)) ∧
     (∀ e, mav_params_parse ["alphaPropSD\t0.1".toList,
        "alpha\t0.5".toList] [alphaKey] ≠ .error e)) :=
  ⟨⟨by decide, by decide⟩,
   c10_params_query ["alphaPropSD\t0.1".toList, "alpha\t0.5".toList]
     [alphaKey] (by decide) (by decide)⟩

/-- C6: whenever a parsed configuration parameter's raw value splits on
commas into more than one token and the token count differs from
`len(k_list)`, `mav_alpha_failsafe` terminates fatally
(`logging.fatal` + `sys.exit(0)`) with an offending parameter named in
the message, and no override mapping is returned. -/
theorem c6_length_mismatch_fatal (paramsLines : List Line)
    (k_list : List Nat) (d : List (Line × Line)) (p v : Line)
    (hd : mav_params_parse paramsLines [alphaKey, alphaPSDKey] =
      .ok (some d))
    (hv : (p, v) ∈ d) (h1 : 1 < (splitChar ',' v).length)
    (h2 : (splitChar ',' v).length ≠ k_list.length) :
    ∃ q w, (q, w) ∈ d ∧ 1 < (splitChar ',' w).length ∧
      (splitChar ',' w).length ≠ k_list.length ∧
      mav_alpha_failsafe paramsLines k_list = .error (.sysExit q) := by
  obtain ⟨q, w, hm, hw1, hw2, he⟩ :=
    failsafeFold_error_of_offending k_list d p v hv h1 h2
      [(alphaKey, none), (alphaPSDKey, none)]
  refine ⟨q, w, hm, hw1, hw2, ?_⟩
  simp only [mav_alpha_failsafe, hd, he]

/-- Witness for C6: `alpha` has 2 comma-separated values while KList has
3 entries. -/
theorem c6_length_mismatch_fatal_witness :
    (mav_params_parse ["alpha\t1,2".toList] [alphaKey, alphaPSDKey] =
        .ok (some [(alphaKey, "1,2".toList)]) ∧
      (alphaKey, "1,2".toList) ∈ [(alphaKey, "1,2".toList)] ∧
      1 < (splitChar ',' "1,2".toList).length ∧
      (splitChar ',' "1,2".toList).length ≠ [1, 2, 3].length) ∧
    (∃ q w, (q, w) ∈ [(alphaKey, "1,2".toList)] ∧
      1 < (splitChar ',' w).length ∧
      (splitChar ',' w).length ≠ ([1, 2, 3] : List Nat).length ∧
      mav_alpha_failsafe ["alpha\t1,2".toList] [1, 2, 3] =
        .error (.sysExit q)) :=
  ⟨⟨by decide, by decide, by decide, by decide⟩,
   c6_length_mismatch_fatal ["alpha\t1,2".toList] [1, 2, 3]
     [(alphaKey, "1,2".toList)] alphaKey "1,2".toList
     (by decide) (by decide) (by decide) (by decide)⟩

/-- C7 amended: for every valid (duplicate-free) KList and a per-K
override value with exactly `len(KList)` comma-separated tokens, *where
that count is greater than one* (a single token resolves to the constant
marker instead — see the counterexample), and with every other parsed
value well-formed, the resolver succeeds and maps the parameter to
`zip(k_list, tokens)`: its key sequence is exactly KList and its values
are the tokens in order (the i-th K maps to the i-th token). -/
theorem c7_amended (paramsLines : List Line) (k_list : List Nat)
    (d : List (Line × Line)) (p v : Line)
    (hd : mav_params_parse paramsLines [alphaKey, alphaPSDKey] =
      .ok (some d))
    (hnd : (d.map Prod.fst).Nodup)
    (hall : ∀ qw ∈ d, ¬1 < (splitChar ',' qw.2).length ∨
      (splitChar ',' qw.2).length = k_list.length)
    (hv : (p, v) ∈ d) (h1 : 1 < (splitChar ',' v).length)
    (hlen : (splitChar ',' v).length = k_list.length) :
    ∃ r, mav_alpha_failsafe paramsLines k_list = .ok r ∧
      lookupP r p = some (some (k_list.zip (splitChar ',' v))) ∧
      (k_list.zip (splitChar ',' v)).map Prod.fst = k_list ∧
      (k_list.zip (splitChar ',' v)).map Prod.snd = splitChar ',' v := by
  obtain ⟨r, hr, hlk⟩ :=
    failsafeFold_lookup_of_mem k_list d p v hnd hall hv h1
      [(alphaKey, none), (alphaPSDKey, none)]
  refine ⟨r, ?_, hlk, ?_, ?_⟩
  · simp only [mav_alpha_failsafe, hd, hr]
  · exact List.map_fst_zip _ _ (le_of_eq hlen.symm)
  · exact List.map_snd_zip _ _ (le_of_eq hlen)

/-- Witness for C7 amended: `alpha = "1,2,3"` with KList `[1, 2, 3]`
resolves to the mapping `[(1, "1"), (2, "2"), (3, "3")]`. -/
theorem c7_amended_witness :
    (mav_params_parse ["alpha\t1,2,3".toList] [alphaKey, alphaPSDKey] =
        .ok (some [(alphaKey, "1,2,3".toList)]) ∧
      ([(alphaKey, "1,2,3".toList)].map Prod.fst).Nodup ∧
      1 < (splitChar ',' "1,2,3".toList).length ∧
      (splitChar ',' "1,2,3".toList).length = [1, 2, 3].length) ∧
    (∃ r, mav_alpha_failsafe ["alpha\t1,2,3".toList] [1, 2, 3] = .ok r ∧
      lookupP r alphaKey =
        some (some (([1, 2, 3] : List Nat).zip
          (splitChar ',' "1,2,3".toList))) ∧
      (([1, 2, 3] : List Nat).zip (splitChar ',' "1,2,3".toList)).map
        Prod.fst = [1, 2, 3] ∧
      (([1, 2, 3] : List Nat).zip (splitChar ',' "1,2,3".toList)).map
        Prod.snd = splitChar ',' "1,2,3".toList) :=
  ⟨⟨by decide, by decide, by decide, by decide⟩,
   c7_amended ["alpha\t1,2,3".toList] [1, 2, 3]
     [(alphaKey, "1,2,3".toList)] alphaKey "1,2,3".toList
     (by decide) (by decide)
     (by decide) (by decide) (by decide) (by decide)⟩

/-- C8: the claim says a missing configuration key is never fatal by
itself — it is logged and the documented default applies (TI defaults to
on, the details file defaults to included).  In the code, when the key
is absent the parser returns `None`, and both `mav_ti_in_use` and
`_gen_files_list` subscript that `None` (before any absence check /
outside any `except KeyError`), raising a fatal `TypeError`. -/
theorem c8_absent_key_type_error :
    mav_ti_in_use ["alpha\t0.5".toList] = .error .typeError ∧
    _gen_files_list ["alpha\t0.5".toList] false = .error .typeError := by
  decide

end MavSpec
